import Mathlib

/-!
Verification of the Excalibur-EXS Proof-of-Forge blockchain node.

This file gives a shallow embedding, in Lean 4, of the core algorithms of the
Excalibur-EXS repository (Rust), and proves or refutes the frozen claims about
them.  Machine integers (u64) are modelled as `Nat` with explicit reduction
modulo `2 ^ 64` wherever the Rust code wraps; byte strings are `List Nat`;
fallible Rust functions returning `Result` are modelled with `Except` or
`Option`.  Each definition is translated from the corresponding Rust source
item (file and function named in its doc comment); definitions that instead
follow the wording of the specification (for refinement comparisons, or for
code the repository references but does not define) say so explicitly.
-/

set_option maxRecDepth 4000

/-- The u64 modulus, `2 ^ 64`. -/
def U64 : Nat := 18446744073709551616

/-- Little-endian decoding of 8 bytes starting at `off`, as in Rust
`u64::from_le_bytes(seed[off..off+8])` (out-of-range positions read 0; the
callers guard the length so this never happens on the paths we prove about). -/
def le64 (bs : List Nat) (off : Nat) : Nat :=
  bs.getD off 0 + bs.getD (off + 1) 0 * 256 + bs.getD (off + 2) 0 * 256 ^ 2 +
    bs.getD (off + 3) 0 * 256 ^ 3 + bs.getD (off + 4) 0 * 256 ^ 4 +
    bs.getD (off + 5) 0 * 256 ^ 5 + bs.getD (off + 6) 0 * 256 ^ 6 +
    bs.getD (off + 7) 0 * 256 ^ 7

/-- Little-endian serialization of a u64 value, as in Rust `v.to_le_bytes()`. -/
def u64LeBytes (v : Nat) : List Nat :=
  [v % 256, v / 256 % 256, v / 256 ^ 2 % 256, v / 256 ^ 3 % 256,
   v / 256 ^ 4 % 256, v / 256 ^ 5 % 256, v / 256 ^ 6 % 256, v / 256 ^ 7 % 256]

/-- Number of Tetra-POW rounds, `TETRA_POW_ROUNDS` in `crypto/mod.rs`. -/
def TETRA_POW_ROUNDS : Nat := 128

/-- Tetra-POW state, `struct TetraPoWState { state: [u64; 4] }` in
`crypto/mod.rs`.  The four u64 lanes are kept as values below `2 ^ 64`. -/
structure TetraPoWState where
  state0 : Nat
  state1 : Nat
  state2 : Nat
  state3 : Nat

/-- `TetraPoWState::new` (`crypto/mod.rs` lines 48-57): lanes start at zero and
are loaded little-endian from the first 32 bytes of the seed only when the seed
holds at least 32 bytes. -/
def TetraPoWState.new (seed : List Nat) : TetraPoWState :=
  if 32 ≤ seed.length then
    ⟨le64 seed 0, le64 seed 8, le64 seed 16, le64 seed 24⟩
  else
    ⟨0, 0, 0, 0⟩

/-- `TetraPoWState::round` (`crypto/mod.rs` lines 60-72): one nonlinear state
shift.  The four xor-shift updates are sequential (each uses the lanes already
rewritten by the earlier lines), exactly as the Rust statements execute; the
left shifts discard high bits (u64 `<<`), the right shifts are logical, and the
constant additions are `wrapping_add`. -/
def TetraPoWState.round (st : TetraPoWState) : TetraPoWState :=
  let a0 := st.state0 ^^^ (((st.state1 <<< 13) % U64) ^^^ (st.state3 >>> 7))
  let a1 := st.state1 ^^^ (((st.state2 <<< 17) % U64) ^^^ (a0 >>> 5))
  let a2 := st.state2 ^^^ (((st.state3 <<< 23) % U64) ^^^ (a1 >>> 11))
  let a3 := st.state3 ^^^ (((a0 <<< 29) % U64) ^^^ (a2 >>> 3))
  ⟨(a0 + 0x9E3779B97F4A7C15) % U64, (a1 + 0x243F6A8885A308D3) % U64,
   (a2 + 0x13198A2E03707344) % U64, (a3 + 0xA4093822299F31D0) % U64⟩

/-- `TetraPoWState::compute` (`crypto/mod.rs` lines 75-85): run the round
loop `for _ in 0..TETRA_POW_ROUNDS { self.round(); }` — the round map iterated
128 times — then serialize the four lanes little-endian in order. -/
def TetraPoWState.compute (st : TetraPoWState) : List Nat :=
  let f := TetraPoWState.round^[TETRA_POW_ROUNDS] st
  u64LeBytes f.state0 ++ u64LeBytes f.state1 ++ u64LeBytes f.state2 ++ u64LeBytes f.state3

/-- `tetra_pow_128_rounds` (`crypto/mod.rs` lines 101-104). -/
def tetra_pow_128_rounds (prophecy_hash : List Nat) : List Nat :=
  (TetraPoWState.new prophecy_hash).compute

/-- Stage 2 as the specification words it, for comparison with the source
embedding: one round over four u64 lanes written with explicit modular
arithmetic (`x * 2 ^ k mod 2 ^ 64` for the logical left shifts, `x / 2 ^ k`
for the logical right shifts, additions modulo `2 ^ 64`). -/
def specTetraRound : Nat × Nat × Nat × Nat → Nat × Nat × Nat × Nat :=
  fun (s0, s1, s2, s3) =>
    let t0 := s0 ^^^ ((s1 * 2 ^ 13 % U64) ^^^ s3 / 2 ^ 7)
    let t1 := s1 ^^^ ((s2 * 2 ^ 17 % U64) ^^^ t0 / 2 ^ 5)
    let t2 := s2 ^^^ ((s3 * 2 ^ 23 % U64) ^^^ t1 / 2 ^ 11)
    let t3 := s3 ^^^ ((t0 * 2 ^ 29 % U64) ^^^ t2 / 2 ^ 3)
    ((t0 + 0x9E3779B97F4A7C15) % U64, (t1 + 0x243F6A8885A308D3) % U64,
     (t2 + 0x13198A2E03707344) % U64, (t3 + 0xA4093822299F31D0) % U64)

/-- Little-endian serialization of the four lanes in order, as the
specification words the final step of Stage 2. -/
def specTetraSerialize : Nat × Nat × Nat × Nat → List Nat :=
  fun (s0, s1, s2, s3) =>
    u64LeBytes s0 ++ u64LeBytes s1 ++ u64LeBytes s2 ++ u64LeBytes s3

/-- Stage 2 — Tetra-POW as the specification describes it: lanes
`s[i] = LE64(input[8i..8i+8])`, 128 rounds of `specTetraRound`, lanes
serialized little-endian in order. -/
def specTetraPow (input : List Nat) : List Nat :=
  specTetraSerialize
    (specTetraRound^[128] (le64 input 0, le64 input 8, le64 input 16, le64 input 24))

/-- The four lanes of a source-side state, as a tuple. -/
def TetraPoWState.toLanes (st : TetraPoWState) : Nat × Nat × Nat × Nat :=
  (st.state0, st.state1, st.state2, st.state3)

theorem TetraPoWState.round_toLanes (st : TetraPoWState) :
    st.round.toLanes = specTetraRound st.toLanes := by
  cases st
  simp [TetraPoWState.round, specTetraRound, TetraPoWState.toLanes,
    Nat.shiftLeft_eq, Nat.shiftRight_eq_div_pow]

theorem TetraPoWState.iterate_round_toLanes (st : TetraPoWState) (n : Nat) :
    (TetraPoWState.round^[n] st).toLanes = specTetraRound^[n] st.toLanes :=
  Function.Semiconj.iterate_right TetraPoWState.round_toLanes n st

theorem TetraPoWState.compute_eq_serialize (st : TetraPoWState) :
    st.compute = specTetraSerialize (specTetraRound^[TETRA_POW_ROUNDS] st.toLanes) := by
  rw [← TetraPoWState.iterate_round_toLanes]
  rcases hst : TetraPoWState.round^[TETRA_POW_ROUNDS] st with ⟨a, b, c, d⟩
  simp [TetraPoWState.compute, hst, specTetraSerialize, TetraPoWState.toLanes]

/-- Every serialized Tetra-POW output holds exactly 32 bytes. -/
theorem TetraPoWState.compute_length (st : TetraPoWState) :
    st.compute.length = 32 := by
  simp [TetraPoWState.compute, u64LeBytes]

/-- C2: for every input of at least 32 bytes, `tetra_pow_128_rounds`
initializes the four u64 lanes little-endian from the first 32 bytes of the
input, applies exactly 128 rounds of the xor-shift recurrence followed by the
wrapping additions of the four round constants, and returns the 32-byte
little-endian serialization of the lanes in order — byte-for-byte the
computation the specification describes (`specTetraPow`). -/
theorem tetra_pow_spec_conformance (input : List Nat) (h : 32 ≤ input.length) :
    tetra_pow_128_rounds input = specTetraPow input := by
  have hnew : TetraPoWState.new input =
      ⟨le64 input 0, le64 input 8, le64 input 16, le64 input 24⟩ := by
    simp [TetraPoWState.new, h]
  rw [tetra_pow_128_rounds, TetraPoWState.compute_eq_serialize, hnew]
  rfl

/-- Witness for C2 at the concrete 32-byte input `List.range 32`. -/
theorem tetra_pow_spec_conformance_witness :
    32 ≤ (List.range 32).length ∧
      tetra_pow_128_rounds (List.range 32) = specTetraPow (List.range 32) :=
  ⟨by decide, tetra_pow_spec_conformance (List.range 32) (by decide)⟩

/-- C10: an input shorter than 32 bytes is ignored entirely — the lanes stay
zero, so every such input produces the same fixed 32-byte output, namely the
128-round result computed from the all-zero state. -/
theorem tetra_pow_short_input (input : List Nat) (h : input.length < 32) :
    tetra_pow_128_rounds input = (TetraPoWState.mk 0 0 0 0).compute ∧
      (tetra_pow_128_rounds input).length = 32 := by
  have hnew : TetraPoWState.new input = ⟨0, 0, 0, 0⟩ := by
    rw [TetraPoWState.new, if_neg (by omega)]
  constructor
  · rw [tetra_pow_128_rounds, hnew]
  · rw [tetra_pow_128_rounds]
    exact TetraPoWState.compute_length _

/-- Witness for C10 at the concrete 3-byte input `[1, 2, 3]`. -/
theorem tetra_pow_short_input_witness :
    ([1, 2, 3] : List Nat).length < 32 ∧
      tetra_pow_128_rounds [1, 2, 3] = (TetraPoWState.mk 0 0 0 0).compute :=
  ⟨by decide, (tetra_pow_short_input [1, 2, 3] (by decide)).1⟩

/-- `calculate_forge_fee` (`crypto/mod.rs` lines 216-226): base fee
100_000_000 sat plus 10_000_000 sat per 10_000 completed forges, capped at
2_100_000_000 sat.  The Rust multiplication and addition are plain u64
arithmetic; a release build wraps on overflow, modelled here with the explicit
reductions modulo `2 ^ 64`. -/
def calculate_forge_fee (forges_completed : Nat) : Nat :=
  let increments := forges_completed / 10000
  let fee := (100000000 + increments * 10000000 % U64) % U64
  min fee 2100000000

/-- Counterexample to C4 as stated: at the concrete input 1_000_000 the fee is
100 increments above base, 1_100_000_000 sat — not the claimed
2_100_000_000 (the cap is first reached at 2_000_000 completions). -/
theorem calculate_forge_fee_at_million :
    calculate_forge_fee 1000000 = 1100000000 ∧
      calculate_forge_fee 1000000 ≠ 2100000000 := by decide

/-- C4 (amended): whenever `100_000_000 + (completed / 10_000) * 10_000_000`
does not overflow u64, `calculate_forge_fee completed` equals
`min (100_000_000 + (completed / 10_000) * 10_000_000) 2_100_000_000`; in
particular the fee at 1_000_000 completions is 1_100_000_000 sat, not the
2_100_000_000 the claim lists. -/
theorem calculate_forge_fee_formula (c : Nat)
    (h : 100000000 + c / 10000 * 10000000 < U64) :
    calculate_forge_fee c = min (100000000 + c / 10000 * 10000000) 2100000000 := by
  have h1 : c / 10000 * 10000000 < U64 := by omega
  simp [calculate_forge_fee, Nat.mod_eq_of_lt h1, Nat.mod_eq_of_lt h]

/-- Witness for the amended C4 at the concrete input 1_000_000. -/
theorem calculate_forge_fee_formula_witness :
    100000000 + 1000000 / 10000 * 10000000 < U64 ∧
      calculate_forge_fee 1000000 =
        min (100000000 + 1000000 / 10000 * 10000000) 2100000000 :=
  ⟨by decide, calculate_forge_fee_formula 1000000 (by decide)⟩

/-- The leading-zero-byte count of a hash, as computed inside
`ConsensusEngine::check_difficulty` (`consensus/mod.rs` lines 185-190):
`hash.iter().take_while(|b| b == 0).count()`. -/
def countLeadingZeroBytes (hash : List Nat) : Nat :=
  (hash.takeWhile fun b => b == 0).length

/-- `ConsensusEngine::check_difficulty` (`consensus/mod.rs` lines 185-190):
the proof hash passes when its leading-zero-byte count is at least the
difficulty. -/
def check_difficulty (hash : List Nat) (difficulty : Nat) : Bool :=
  decide (difficulty ≤ countLeadingZeroBytes hash)

/-- C5: for every 32-byte hash and every difficulty `d`, the check passes iff
the hash has at least `d` leading zero bytes; a hash with exactly `d` leading
zero bytes passes, and one with exactly `d - 1` (for `d ≥ 1`) does not. -/
theorem check_difficulty_spec (hash : List Nat) (d : Nat)
    (_hlen : hash.length = 32) :
    (check_difficulty hash d = true ↔ d ≤ countLeadingZeroBytes hash) ∧
    (countLeadingZeroBytes hash = d → check_difficulty hash d = true) ∧
    (1 ≤ d → countLeadingZeroBytes hash = d - 1 →
      check_difficulty hash d = false) := by
  refine ⟨by simp [check_difficulty], ?_, ?_⟩
  · intro h
    simp [check_difficulty, h]
  · intro hd h
    simp only [check_difficulty, decide_eq_false_iff_not]
    omega

/-- Witness for C5 at difficulty 2, on a 32-byte hash with exactly two leading
zero bytes (passes) and a 32-byte hash with exactly one (fails). -/
theorem check_difficulty_spec_witness :
    check_difficulty (0 :: 0 :: 1 :: List.replicate 29 7) 2 = true ∧
      check_difficulty (0 :: 1 :: List.replicate 30 7) 2 = false :=
  ⟨(check_difficulty_spec (0 :: 0 :: 1 :: List.replicate 29 7) 2 (by decide)).2.1
      (by decide),
   (check_difficulty_spec (0 :: 1 :: List.replicate 30 7) 2 (by decide)).2.2
      (by decide) (by decide)⟩

/-- `ForgeTransaction` (`consensus/mod.rs` lines 22-30). -/
structure ForgeTransaction where
  prophecy : String
  derived_key : List Nat
  taproot_address : String
  proof_hash : List Nat
  timestamp : Nat
  signature : List Nat
deriving DecidableEq

/-- `CANONICAL_PROPHECY` (`crypto/mod.rs` lines 19-22). -/
def CANONICAL_PROPHECY : List String :=
  ["sword", "legend", "pull", "magic", "kingdom", "artist",
   "stone", "destroy", "forget", "fire", "steel", "honey", "question"]

/-- The canonical prophecy joined by single spaces, the byte string the
specification says a forge prophecy must equal (§4.4).  The Rust comparison
`forge.prophecy != CANONICAL_PROPHECY` compares a `String` against the word
array; modelled from the spec: the comparison is against the 13 words joined
by a single space. -/
def canonicalProphecyString : String :=
  String.intercalate " " CANONICAL_PROPHECY

/-- Modelled from the spec: the result record of the two-argument
`proof_of_forge(prophecy, timestamp)` that `ConsensusEngine::validate_forge`
calls (`consensus/mod.rs` line 87).  The crypto module only defines a
three-argument `proof_of_forge(words, salt, network)` with differently named
result fields, so the pipeline the consensus engine consumes is absent from
the sources (spec §9, open question 1); only the fields the engine reads are
modelled. -/
structure ConsensusPoFResult where
  derived_key : List Nat
  taproot_address : String
  proof_hash : List Nat
deriving DecidableEq

/-- `ConsensusEngine::validate_forge` (`consensus/mod.rs` lines 80-112),
parameterized by the pipeline function `pof` it recomputes with (see
`ConsensusPoFResult`), by the current difficulty, and by the set of already
used proof hashes from the chain state.  The checks run in source order:
canonical prophecy, pipeline recomputation, derived-key match, taproot-address
match, difficulty on the recomputed proof hash, replay. -/
def validate_forge (pof : String → Nat → Except String ConsensusPoFResult)
    (difficulty : Nat) (used_prophecies : List (List Nat))
    (forge : ForgeTransaction) : Except String Bool :=
  if forge.prophecy ≠ canonicalProphecyString then
    .error "Invalid prophecy - must use canonical 13-word axiom"
  else
    match pof forge.prophecy forge.timestamp with
    | .error e => .error e
    | .ok r =>
      if r.derived_key ≠ forge.derived_key then
        .error "Derived key mismatch"
      else if r.taproot_address ≠ forge.taproot_address then
        .error "Taproot address mismatch"
      else if check_difficulty r.proof_hash difficulty = false then
        .error "Proof hash does not meet difficulty requirement"
      else if r.proof_hash ∈ used_prophecies then
        .error "Proof already used (replay attack)"
      else
        .ok true

/-- C1: however the Proof-of-Forge pipeline computes, a forge accepted by
`validate_forge` recomputes to exactly its claimed derived key and taproot
address: success implies the pipeline succeeded on `(prophecy, timestamp)`
with a result whose `derived_key` and `taproot_address` are byte-equal to the
forge fields. -/
theorem validate_forge_recompute
    (pof : String → Nat → Except String ConsensusPoFResult)
    (difficulty : Nat) (used_prophecies : List (List Nat))
    (forge : ForgeTransaction)
    (h : validate_forge pof difficulty used_prophecies forge = .ok true) :
    ∃ r, pof forge.prophecy forge.timestamp = .ok r ∧
      r.derived_key = forge.derived_key ∧
      r.taproot_address = forge.taproot_address := by
  rw [validate_forge] at h
  split at h
  · exact Except.noConfusion h
  · revert h
    split
    · intro h
      exact Except.noConfusion h
    · rename_i r hr
      intro h
      split_ifs at h with h1 h2 h3 h4
      all_goals
        first
          | exact Except.noConfusion h
          | exact ⟨r, hr, not_not.mp h1, not_not.mp h2⟩

/-- A pipeline stub used only to witness C1 on concrete data. -/
def pofStub : String → Nat → Except String ConsensusPoFResult :=
  fun _ _ => .ok ⟨[1, 2], "bc1qstub", [0]⟩

/-- A concrete forge matching `pofStub`, used only to witness C1. -/
def forgeStub : ForgeTransaction :=
  ⟨canonicalProphecyString, [1, 2], "bc1qstub", [0], 77, []⟩

/-- Witness for C1: `validate_forge` accepts `forgeStub` at difficulty 0 with
no used hashes, and the recomputed pipeline result matches its fields. -/
theorem validate_forge_recompute_witness :
    validate_forge pofStub 0 [] forgeStub = .ok true ∧
      ∃ r, pofStub forgeStub.prophecy forgeStub.timestamp = .ok r ∧
        r.derived_key = forgeStub.derived_key ∧
        r.taproot_address = forgeStub.taproot_address :=
  ⟨by rfl, validate_forge_recompute pofStub 0 [] forgeStub (by rfl)⟩

/-- The zero digest returned for an empty forge list
(`consensus/mod.rs` lines 196-198). -/
def zeroDigest : List Nat := List.replicate 32 0

/-- One level of the merkle loop in `ConsensusEngine::compute_merkle_root`
(`consensus/mod.rs` lines 210-223): `hashes.chunks(2)` hashes the
concatenation of each adjacent pair, and a final unpaired element is hashed
with itself.  Parameterized by the (SHA-256) hash function. -/
def merkleLevel (hash : List Nat → List Nat) : List (List Nat) → List (List Nat)
  | [] => []
  | [a] => [hash (a ++ a)]
  | a :: b :: rest => hash (a ++ b) :: merkleLevel hash rest

theorem merkleLevel_length (hash : List Nat → List Nat) :
    ∀ l : List (List Nat), (merkleLevel hash l).length = (l.length + 1) / 2
  | [] => by simp [merkleLevel]
  | [_] => by simp [merkleLevel]
  | _ :: _ :: rest => by
    simp [merkleLevel, merkleLevel_length hash rest]
    omega

/-- The `while hashes.len() > 1` loop of `compute_merkle_root`: fold levels
until a single hash remains and return it (`hashes[0]`); the empty case is
unreachable from the function, which guards it beforehand. -/
def merkleFold (hash : List Nat → List Nat) : List (List Nat) → List Nat
  | [] => zeroDigest
  | [a] => a
  | a :: b :: rest => merkleFold hash (merkleLevel hash (a :: b :: rest))
  termination_by l => l.length
  decreasing_by simp [merkleLevel_length]; omega

/-- `ConsensusEngine::compute_merkle_root` (`consensus/mod.rs` lines 193-226),
parameterized by the SHA-256 function and the bincode serialization of a
forge: empty input returns the 32-byte zero digest, otherwise each serialized
forge is hashed into a leaf and the levels are folded to a single root. -/
def compute_merkle_root (hash : List Nat → List Nat)
    (serialize : ForgeTransaction → List Nat)
    (forges : List ForgeTransaction) : List Nat :=
  if forges.isEmpty then zeroDigest
  else merkleFold hash (forges.map fun f => hash (serialize f))

/-- One pairing level as the specification words it: index-based adjacent
pairing over `⌈n / 2⌉` output slots, the odd final element paired with
itself. -/
def specMerkleLevel (hash : List Nat → List Nat) (l : List (List Nat)) :
    List (List Nat) :=
  (List.range ((l.length + 1) / 2)).map fun i =>
    hash (l.getD (2 * i) [] ++ l.getD (2 * i + 1) (l.getD (2 * i) []))

/-- The repeated pairing of the specification: while more than one hash
remains, pair adjacently (duplicating an odd tail) until one remains. -/
def specMerkleFold (hash : List Nat → List Nat) : List (List Nat) → List Nat
  | [] => zeroDigest
  | [a] => a
  | a :: b :: rest => specMerkleFold hash (specMerkleLevel hash (a :: b :: rest))
  termination_by l => l.length
  decreasing_by
    simp [specMerkleLevel]
    omega

/-- The Merkle root as the specification describes it: leaves
`h_i = SHA256(serialize(forge_i))`, repeated adjacent pairing with odd-tail
duplication down to one hash; the zero digest for the empty list. -/
def spec_merkle_root (hash : List Nat → List Nat)
    (serialize : ForgeTransaction → List Nat)
    (forges : List ForgeTransaction) : List Nat :=
  if forges = [] then zeroDigest
  else specMerkleFold hash (forges.map fun f => hash (serialize f))

theorem merkleLevel_eq_spec (hash : List Nat → List Nat) :
    ∀ l : List (List Nat), merkleLevel hash l = specMerkleLevel hash l
  | [] => by simp [merkleLevel, specMerkleLevel]
  | [a] => by simp [merkleLevel, specMerkleLevel, List.range_succ]
  | a :: b :: rest => by
    have ih := merkleLevel_eq_spec hash rest
    have hn : ((a :: b :: rest).length + 1) / 2 = (rest.length + 1) / 2 + 1 := by
      simp
      omega
    simp only [merkleLevel, ih, specMerkleLevel, hn, List.range_succ_eq_map,
      List.map_cons, List.map_map]
    refine congrArg₂ List.cons ?_ ?_
    · simp
    · apply List.map_congr_left
      intro i _
      have h1 : 2 * (i + 1) = 2 * i + 1 + 1 := by omega
      have h2 : 2 * (i + 1) + 1 = 2 * i + 1 + 1 + 1 := by omega
      simp [Function.comp_def, h1, h2]

theorem merkleFold_eq_spec (hash : List Nat → List Nat) :
    ∀ (n : Nat) (l : List (List Nat)), l.length ≤ n →
      merkleFold hash l = specMerkleFold hash l := by
  intro n
  induction n with
  | zero =>
    intro l hl
    rw [List.length_eq_zero.mp (Nat.le_zero.mp hl)]
    simp [merkleFold, specMerkleFold]
  | succ n ih =>
    intro l hl
    match l with
    | [] => simp [merkleFold, specMerkleFold]
    | [a] => simp [merkleFold, specMerkleFold]
    | a :: b :: rest =>
      simp only [merkleFold, specMerkleFold]
      rw [merkleLevel_eq_spec hash]
      apply ih
      have hlev : (specMerkleLevel hash (a :: b :: rest)).length =
          ((a :: b :: rest).length + 1) / 2 := by
        simp [specMerkleLevel]
      rw [hlev]
      simp at hl ⊢
      omega

/-- C3: `compute_merkle_root` — for any hash function and any serialization —
hashes each serialized forge into a leaf, then repeatedly pairs adjacent
hashes (duplicating an odd final element) until one remains, and returns the
32-byte zero digest for the empty list: it coincides with the specification
formulation `spec_merkle_root` on every input. -/
theorem compute_merkle_root_spec_conformance (hash : List Nat → List Nat)
    (serialize : ForgeTransaction → List Nat)
    (forges : List ForgeTransaction) :
    compute_merkle_root hash serialize forges =
      spec_merkle_root hash serialize forges := by
  match forges with
  | [] => simp [compute_merkle_root, spec_merkle_root]
  | f :: fs =>
    rw [compute_merkle_root, spec_merkle_root]
    simp only [List.isEmpty_cons, Bool.false_eq_true, if_false,
      reduceCtorEq, List.map_cons]
    exact merkleFold_eq_spec hash _ _ (Nat.le_refl _)

/-- `ForgePriority` (`mempool/mod.rs` lines 9-13).  Rust derives `Ord`, which
orders by `(timestamp, fee)` lexicographically. -/
structure ForgePriority where
  timestamp : Nat
  fee : Nat
deriving DecidableEq

/-- `MempoolEntry` (`mempool/mod.rs` lines 16-21). -/
structure MempoolEntry where
  forge : ForgeTransaction
  priority : ForgePriority
  added_at : Nat
deriving DecidableEq

/-- `ForgePool` (`mempool/mod.rs` lines 24-33): `pending` is a
`HashMap<[u8; 32], MempoolEntry>`, modelled as an association list (the
operations below keep its keys unique); `priority_queue` is a
`BTreeSet<([u8; 32], ForgePriority)>`, modelled as a duplicate-free list that
`get_forges_for_block` sorts on demand with the `BTreeSet` element order. -/
structure ForgePool where
  pending : List (List Nat × MempoolEntry)
  priority_queue : List (List Nat × ForgePriority)
  max_size : Nat
  min_fee : Nat
deriving DecidableEq

/-- `ForgePool::new` (`mempool/mod.rs` lines 37-44). -/
def ForgePool.new (max_size min_fee : Nat) : ForgePool :=
  ⟨[], [], max_size, min_fee⟩

/-- `HashMap::get` / `contains_key` on the pending map. -/
def alookup (h : List Nat) : List (List Nat × MempoolEntry) → Option MempoolEntry
  | [] => none
  | kv :: rest => if kv.1 = h then some kv.2 else alookup h rest

/-- `BTreeSet::insert`: adds the element unless already present. -/
def insertSet (x : List Nat × ForgePriority)
    (q : List (List Nat × ForgePriority)) : List (List Nat × ForgePriority) :=
  if x ∈ q then q else x :: q

/-- The two admission failures of `add_forge`. -/
inductive MempoolError where
  | duplicate
  | full
deriving DecidableEq

/-- `ForgePool::add_forge` (`mempool/mod.rs` lines 47-84): fail on a duplicate
`proof_hash`, fail when the pool already holds `max_size` entries, otherwise
insert into both structures with priority `(forge.timestamp, min_fee)` and
`added_at = now`.  Failures return the pool unchanged (the Rust method holds
both write locks and returns before mutating). -/
def add_forge (pool : ForgePool) (forge : ForgeTransaction) (now : Nat) :
    ForgePool × Option MempoolError :=
  if (alookup forge.proof_hash pool.pending).isSome then
    (pool, some .duplicate)
  else if pool.max_size ≤ pool.pending.length then
    (pool, some .full)
  else
    let priority : ForgePriority := ⟨forge.timestamp, pool.min_fee⟩
    ({ pool with
        pending := (forge.proof_hash, ⟨forge, priority, now⟩) :: pool.pending,
        priority_queue := insertSet (forge.proof_hash, priority) pool.priority_queue },
     none)

/-- `HashMap::remove` on the pending map (the operations keep keys unique, so
removing every binding of the key is the removal of its one binding). -/
def eraseKey (h : List Nat) (m : List (List Nat × MempoolEntry)) :
    List (List Nat × MempoolEntry) :=
  m.filter fun kv => !decide (kv.1 = h)

/-- `BTreeSet::remove`: drops the element (sets hold no duplicates). -/
def eraseElem (x : List Nat × ForgePriority)
    (q : List (List Nat × ForgePriority)) : List (List Nat × ForgePriority) :=
  q.filter fun y => !decide (y = x)

/-- `ForgePool::remove_forge` (`mempool/mod.rs` lines 87-98): remove the entry
from `pending` and its `(proof_hash, priority)` pair from the queue, returning
the forge; a missing hash is an error that leaves the pool unchanged. -/
def remove_forge (pool : ForgePool) (proof_hash : List Nat) :
    ForgePool × Option ForgeTransaction :=
  match alookup proof_hash pool.pending with
  | none => (pool, none)
  | some entry =>
    ({ pool with
        pending := eraseKey proof_hash pool.pending,
        priority_queue := eraseElem (proof_hash, entry.priority) pool.priority_queue },
     some entry.forge)

/-- `ForgePool::contains` (`mempool/mod.rs` lines 107-110). -/
def poolContains (pool : ForgePool) (proof_hash : List Nat) : Bool :=
  (alookup proof_hash pool.pending).isSome

/-- `ForgePool::remove_block_forges` (`mempool/mod.rs` lines 132-139): remove
each forge of the block that is present; missing ones are skipped. -/
def remove_block_forges (pool : ForgePool) (forges : List ForgeTransaction) :
    ForgePool :=
  forges.foldl
    (fun p f => if poolContains p f.proof_hash then (remove_forge p f.proof_hash).1 else p)
    pool

/-- u64 wrapping subtraction (Rust release-build `now - entry.added_at`),
for operands below `2 ^ 64`. -/
def wrapSub (a b : Nat) : Nat := (U64 + a - b) % U64

/-- `ForgePool::remove_expired` (`mempool/mod.rs` lines 156-184): collect the
hashes whose age exceeds the timeout, remove each from both structures, and
return how many were collected. -/
def remove_expired (pool : ForgePool) (timeout_secs now : Nat) :
    ForgePool × Nat :=
  let expired :=
    (pool.pending.filter fun kv => decide (timeout_secs < wrapSub now kv.2.added_at)).map
      fun kv => kv.1
  (expired.foldl (fun p h => (remove_forge p h).1) pool, expired.length)

/-- `ForgePool::clear` (`mempool/mod.rs` lines 148-153). -/
def clearPool (pool : ForgePool) : ForgePool :=
  { pool with pending := [], priority_queue := [] }

/-- Strict lexicographic order on byte strings, the `Ord` instance Rust uses
on `[u8; 32]` (elementwise, shorter prefix first — the pool only ever
compares equal-length hashes). -/
def bytesLtB : List Nat → List Nat → Bool
  | [], [] => false
  | [], _ :: _ => true
  | _ :: _, [] => false
  | a :: as, b :: bs =>
    if a < b then true else if b < a then false else bytesLtB as bs

/-- Strict lexicographic order on `ForgePriority`, Rust derived `Ord` on
`(timestamp, fee)`. -/
def prioLtB (p q : ForgePriority) : Bool :=
  if p.timestamp < q.timestamp then true
  else if q.timestamp < p.timestamp then false
  else decide (p.fee < q.fee)

/-- Strict lexicographic order on queue elements: `proof_hash` first, then
priority — the derived tuple `Ord` the `BTreeSet` sorts by. -/
def keyLtB (x y : List Nat × ForgePriority) : Bool :=
  if bytesLtB x.1 y.1 then true
  else if bytesLtB y.1 x.1 then false
  else prioLtB x.2 y.2

/-- The non-strict `BTreeSet` element order. -/
def keyLE (x y : List Nat × ForgePriority) : Prop :=
  keyLtB x y = true ∨ x = y

instance : DecidableRel keyLE := fun x y =>
  inferInstanceAs (Decidable (keyLtB x y = true ∨ x = y))

/-- `ForgePool::get_forges_for_block` (`mempool/mod.rs` lines 119-129): walk
the `BTreeSet` in reverse element order (`iter().rev()`), take up to
`max_forges` pairs, and look each hash up in `pending`.  The `BTreeSet`
iteration in ascending element order is the queue list sorted by `keyLE`. -/
def get_forges_for_block (pool : ForgePool) (max_forges : Nat) :
    List ForgeTransaction :=
  (((pool.priority_queue.insertionSort keyLE).reverse.take max_forges).filterMap
    fun x => (alookup x.1 pool.pending).map fun e => e.forge)

/-- Occurrences of a proof hash among the queue pairs. -/
def countKey (h : List Nat) : List (List Nat × ForgePriority) → Nat
  | [] => 0
  | x :: q => (if x.1 = h then 1 else 0) + countKey h q

/-- The mempool coherence invariant of the claim: a proof hash that is a key
of `pending` occurs exactly once in the priority index, and that occurrence
carries the stored entry priority; a hash that is not a key of `pending` does
not occur in the priority index at all. -/
def poolInv (pool : ForgePool) : Prop :=
  ∀ h : List Nat,
    (∀ e, alookup h pool.pending = some e →
      countKey h pool.priority_queue = 1 ∧ (h, e.priority) ∈ pool.priority_queue) ∧
    (alookup h pool.pending = none → countKey h pool.priority_queue = 0)

theorem countKey_pos_of_mem {h : List Nat} {pr : ForgePriority}
    {q : List (List Nat × ForgePriority)} (hm : (h, pr) ∈ q) :
    0 < countKey h q := by
  induction q with
  | nil => cases hm
  | cons y q ih =>
    rcases List.mem_cons.mp hm with hy | hy
    · subst hy
      simp [countKey]
    · have := ih hy
      rw [countKey]
      omega

theorem countKey_eraseElem_le (h : List Nat) (x : List Nat × ForgePriority)
    (q : List (List Nat × ForgePriority)) :
    countKey h (eraseElem x q) ≤ countKey h q := by
  induction q with
  | nil => exact Nat.le_refl 0
  | cons y q ih =>
    by_cases hy : y = x
    · have : eraseElem x (y :: q) = eraseElem x q := by
        simp [eraseElem, List.filter_cons, hy]
      rw [this, countKey]
      omega
    · have : eraseElem x (y :: q) = y :: eraseElem x q := by
        simp [eraseElem, List.filter_cons, hy]
      rw [this, countKey, countKey]
      omega

theorem countKey_eraseElem_ne {h : List Nat} {x : List Nat × ForgePriority}
    (hne : x.1 ≠ h) (q : List (List Nat × ForgePriority)) :
    countKey h (eraseElem x q) = countKey h q := by
  induction q with
  | nil => rfl
  | cons y q ih =>
    by_cases hy : y = x
    · have he : eraseElem x (y :: q) = eraseElem x q := by
        simp [eraseElem, List.filter_cons, hy]
      have hk : y.1 ≠ h := by rw [hy]; exact hne
      rw [he, ih, countKey, if_neg hk]
      omega
    · have he : eraseElem x (y :: q) = y :: eraseElem x q := by
        simp [eraseElem, List.filter_cons, hy]
      rw [he, countKey, countKey, ih]

theorem countKey_eraseElem_self {h : List Nat} {pr : ForgePriority}
    {q : List (List Nat × ForgePriority)} (h1 : countKey h q = 1)
    (hm : (h, pr) ∈ q) : countKey h (eraseElem (h, pr) q) = 0 := by
  induction q with
  | nil => cases hm
  | cons y q ih =>
    by_cases hy : y = (h, pr)
    · have he : eraseElem (h, pr) (y :: q) = eraseElem (h, pr) q := by
        simp [eraseElem, List.filter_cons, hy]
      rw [he]
      have h1q : 1 + countKey h q = 1 := by simpa [countKey, hy] using h1
      have hq : countKey h q = 0 := by omega
      have := countKey_eraseElem_le h (h, pr) q
      omega
    · have hmem : (h, pr) ∈ q := by
        rcases List.mem_cons.mp hm with hz | hz
        · exact absurd hz.symm hy
        · exact hz
      have he : eraseElem (h, pr) (y :: q) = y :: eraseElem (h, pr) q := by
        simp [eraseElem, List.filter_cons, hy]
      rw [countKey] at h1
      by_cases hk : y.1 = h
      · have := countKey_pos_of_mem hmem
        rw [if_pos hk] at h1
        omega
      · rw [if_neg hk] at h1
        rw [he, countKey, if_neg hk, ih (by omega) hmem]

theorem alookup_eraseKey_self (h : List Nat)
    (m : List (List Nat × MempoolEntry)) :
    alookup h (eraseKey h m) = none := by
  induction m with
  | nil => rfl
  | cons kv m ih =>
    by_cases hk : kv.1 = h
    · have he : eraseKey h (kv :: m) = eraseKey h m := by
        simp [eraseKey, List.filter_cons, hk]
      rw [he, ih]
    · have he : eraseKey h (kv :: m) = kv :: eraseKey h m := by
        simp [eraseKey, List.filter_cons, hk]
      rw [he, alookup, if_neg hk, ih]

theorem alookup_eraseKey_ne {g h : List Nat} (hne : g ≠ h)
    (m : List (List Nat × MempoolEntry)) :
    alookup g (eraseKey h m) = alookup g m := by
  induction m with
  | nil => rfl
  | cons kv m ih =>
    by_cases hk : kv.1 = h
    · have hkg : kv.1 ≠ g := by rw [hk]; exact fun hx => hne hx.symm
      have he : eraseKey h (kv :: m) = eraseKey h m := by
        simp [eraseKey, List.filter_cons, hk]
      rw [he, ih, alookup, if_neg hkg]
    · have he : eraseKey h (kv :: m) = kv :: eraseKey h m := by
        simp [eraseKey, List.filter_cons, hk]
      rw [he, alookup, alookup, ih]

theorem mem_eraseElem {y x : List Nat × ForgePriority}
    {q : List (List Nat × ForgePriority)} (hm : y ∈ q) (hne : y ≠ x) :
    y ∈ eraseElem x q :=
  List.mem_filter.mpr ⟨hm, by simp [hne]⟩

theorem countKey_insertSet_ne {h : List Nat} {x : List Nat × ForgePriority}
    (hne : x.1 ≠ h) (q : List (List Nat × ForgePriority)) :
    countKey h (insertSet x q) = countKey h q := by
  rw [insertSet]
  split
  · rfl
  · rw [countKey, if_neg hne]
    omega

/-- The empty pool satisfies the invariant. -/
theorem poolInv_new (max_size min_fee : Nat) :
    poolInv (ForgePool.new max_size min_fee) := by
  intro h
  refine ⟨fun e he => ?_, fun _ => rfl⟩
  cases he

theorem poolInv_add (pool : ForgePool) (f : ForgeTransaction) (now : Nat)
    (hinv : poolInv pool) : poolInv (add_forge pool f now).1 := by
  rw [add_forge]
  split
  · exact hinv
  · split
    · exact hinv
    · rename_i hdup hfull
      have hnone : alookup f.proof_hash pool.pending = none :=
        Option.not_isSome_iff_eq_none.mp hdup
      have hcount : countKey f.proof_hash pool.priority_queue = 0 :=
        (hinv f.proof_hash).2 hnone
      have hnotmem : (f.proof_hash, (⟨f.timestamp, pool.min_fee⟩ : ForgePriority)) ∉
          pool.priority_queue := by
        intro hmem
        have := countKey_pos_of_mem hmem
        omega
      have hins : insertSet (f.proof_hash, ⟨f.timestamp, pool.min_fee⟩)
          pool.priority_queue =
          (f.proof_hash, (⟨f.timestamp, pool.min_fee⟩ : ForgePriority)) ::
            pool.priority_queue := by
        rw [insertSet, if_neg hnotmem]
      intro h
      constructor
      · intro e he
        by_cases hh : h = f.proof_hash
        · subst hh
          rw [alookup, if_pos rfl] at he
          cases he
          simp only [hins]
          refine ⟨?_, List.mem_cons_self _ _⟩
          rw [countKey, if_pos rfl, hcount]
        · rw [alookup, if_neg (fun hx => hh hx.symm)] at he
          have hprev := (hinv h).1 e he
          simp only [hins]
          refine ⟨?_, List.mem_cons_of_mem _ hprev.2⟩
          rw [countKey, if_neg (fun hx => hh hx.symm), hprev.1]
      · intro hno
        by_cases hh : h = f.proof_hash
        · subst hh
          rw [alookup, if_pos rfl] at hno
          cases hno
        · rw [alookup, if_neg (fun hx => hh hx.symm)] at hno
          simp only [hins]
          rw [countKey, if_neg (fun hx => hh hx.symm), (hinv h).2 hno]

theorem poolInv_remove (pool : ForgePool) (h : List Nat)
    (hinv : poolInv pool) : poolInv (remove_forge pool h).1 := by
  cases halk : alookup h pool.pending with
  | none =>
    simp only [remove_forge, halk]
    exact hinv
  | some e =>
    simp only [remove_forge, halk]
    intro g
    constructor
    · intro e' he'
      by_cases hg : g = h
      · subst hg
        rw [alookup_eraseKey_self] at he'
        cases he'
      · rw [alookup_eraseKey_ne hg] at he'
        have hprev := (hinv g).1 e' he'
        constructor
        · rw [countKey_eraseElem_ne (x := (h, e.priority)) (fun hx => hg hx.symm)]
          exact hprev.1
        · exact mem_eraseElem hprev.2 (fun hx => hg (congrArg Prod.fst hx))
    · intro hno
      by_cases hg : g = h
      · subst hg
        have hprev := (hinv g).1 e halk
        exact countKey_eraseElem_self hprev.1 hprev.2
      · rw [alookup_eraseKey_ne hg] at hno
        rw [countKey_eraseElem_ne (x := (h, e.priority)) (fun hx => hg hx.symm)]
        exact (hinv g).2 hno

theorem poolInv_foldl_remove (hs : List (List Nat)) (pool : ForgePool)
    (hinv : poolInv pool) :
    poolInv (hs.foldl (fun p h => (remove_forge p h).1) pool) := by
  induction hs generalizing pool with
  | nil => exact hinv
  | cons h hs ih => exact ih _ (poolInv_remove pool h hinv)

theorem poolInv_remove_block (pool : ForgePool) (fs : List ForgeTransaction)
    (hinv : poolInv pool) : poolInv (remove_block_forges pool fs) := by
  rw [remove_block_forges]
  induction fs generalizing pool with
  | nil => exact hinv
  | cons f fs ih =>
    rw [List.foldl_cons]
    apply ih
    split
    · exact poolInv_remove pool f.proof_hash hinv
    · exact hinv

theorem poolInv_remove_expired (pool : ForgePool) (timeout now : Nat)
    (hinv : poolInv pool) : poolInv (remove_expired pool timeout now).1 :=
  poolInv_foldl_remove _ pool hinv

theorem poolInv_clear (pool : ForgePool) : poolInv (clearPool pool) := by
  intro h
  refine ⟨fun e he => ?_, fun _ => rfl⟩
  cases he

/-- A mempool operation, as the claim ranges over them. -/
inductive PoolOp where
  | add (f : ForgeTransaction) (now : Nat)
  | remove (proof_hash : List Nat)
  | removeBlock (forges : List ForgeTransaction)
  | removeExpired (timeout now : Nat)
  | clearAll

/-- Apply one mempool operation to the pool (discarding return values). -/
def applyOp (pool : ForgePool) : PoolOp → ForgePool
  | .add f now => (add_forge pool f now).1
  | .remove h => (remove_forge pool h).1
  | .removeBlock fs => remove_block_forges pool fs
  | .removeExpired t now => (remove_expired pool t now).1
  | .clearAll => clearPool pool

/-- C7: starting from an empty pool, after any sequence of mempool operations
a proof hash is a key of `pending` iff it occurs exactly once in the priority
index, and that occurrence carries the stored entry priority. -/
theorem mempool_index_invariant (ops : List PoolOp) (max_size min_fee : Nat) :
    poolInv (ops.foldl applyOp (ForgePool.new max_size min_fee)) := by
  have step : ∀ (ops : List PoolOp) (pool : ForgePool), poolInv pool →
      poolInv (ops.foldl applyOp pool) := by
    intro ops
    induction ops with
    | nil => exact fun pool h => h
    | cons op ops ih =>
      intro pool hinv
      rw [List.foldl_cons]
      apply ih
      cases op with
      | add f now => exact poolInv_add pool f now hinv
      | remove h => exact poolInv_remove pool h hinv
      | removeBlock fs => exact poolInv_remove_block pool fs hinv
      | removeExpired t now => exact poolInv_remove_expired pool t now hinv
      | clearAll => exact poolInv_clear pool
  exact step ops _ (poolInv_new max_size min_fee)

/-- C6: `add_forge` fails with `duplicate` when the proof hash is already
pending and with `full` when the pool already holds `max_size` or more
entries, both failures returning the pool exactly unchanged; otherwise it
succeeds, inserting the forge into `pending` and the pair
`(proof_hash, (timestamp, min_fee))` into the priority index. -/
theorem add_forge_admission (pool : ForgePool) (f : ForgeTransaction)
    (now : Nat) :
    ((alookup f.proof_hash pool.pending).isSome = true →
      add_forge pool f now = (pool, some .duplicate)) ∧
    ((alookup f.proof_hash pool.pending).isSome = false →
      pool.max_size ≤ pool.pending.length →
      add_forge pool f now = (pool, some .full)) ∧
    ((alookup f.proof_hash pool.pending).isSome = false →
      pool.pending.length < pool.max_size →
      (add_forge pool f now).2 = none ∧
      alookup f.proof_hash (add_forge pool f now).1.pending =
        some ⟨f, ⟨f.timestamp, pool.min_fee⟩, now⟩ ∧
      (f.proof_hash, (⟨f.timestamp, pool.min_fee⟩ : ForgePriority)) ∈
        (add_forge pool f now).1.priority_queue) := by
  refine ⟨fun h1 => ?_, fun h1 h2 => ?_, fun h1 h2 => ?_⟩
  · rw [add_forge, if_pos h1]
  · rw [add_forge, if_neg (by simp [h1]), if_pos h2]
  · have hno : ¬ (alookup f.proof_hash pool.pending).isSome = true := by
      simp [h1]
    have hsz : ¬ pool.max_size ≤ pool.pending.length := by omega
    have hadd : add_forge pool f now =
        ({ pool with
            pending :=
              (f.proof_hash, ⟨f, ⟨f.timestamp, pool.min_fee⟩, now⟩) :: pool.pending,
            priority_queue :=
              insertSet (f.proof_hash, ⟨f.timestamp, pool.min_fee⟩)
                pool.priority_queue },
         none) := by
      rw [add_forge, if_neg hno, if_neg hsz]
    rw [hadd]
    refine ⟨rfl, ?_, ?_⟩
    · rw [alookup, if_pos rfl]
    · rw [insertSet]
      split
      · assumption
      · exact List.mem_cons_self _ _

/-- A first concrete forge for the C6 witness. -/
def forgeW1 : ForgeTransaction :=
  ⟨canonicalProphecyString, [], "addr1", List.replicate 32 1, 1000, []⟩

/-- A second concrete forge for the C6 witness. -/
def forgeW2 : ForgeTransaction :=
  ⟨canonicalProphecyString, [], "addr2", List.replicate 32 2, 1001, []⟩

/-- A capacity-1 pool holding `forgeW1`, for the C6 witness. -/
def poolW : ForgePool := (add_forge (ForgePool.new 1 5) forgeW1 10).1

/-- Witness for C6: on the concrete capacity-1 pool, re-adding the pending
forge fails with `duplicate` and adding a second forge fails with `full`,
each returning the pool unchanged. -/
theorem add_forge_admission_witness :
    add_forge poolW forgeW1 11 = (poolW, some .duplicate) ∧
      add_forge poolW forgeW2 11 = (poolW, some .full) :=
  ⟨(add_forge_admission poolW forgeW1 11).1 (by decide),
   (add_forge_admission poolW forgeW2 11).2.1 (by decide) (by decide)⟩

theorem bytesLtB_cons (x y : Nat) (a b : List Nat) :
    bytesLtB (x :: a) (y :: b) = true ↔
      x < y ∨ (x = y ∧ bytesLtB a b = true) := by
  rw [bytesLtB]
  split_ifs with h1 h2
  · simp [h1]
  · constructor
    · intro h
      cases h
    · rintro (h | ⟨rfl, _⟩)
      · exact absurd h h1
      · exact absurd h2 (Nat.lt_irrefl x)
  · have hxy : x = y := by omega
    simp [hxy]

theorem bytesLtB_trans : ∀ {a b c : List Nat}, bytesLtB a b = true →
    bytesLtB b c = true → bytesLtB a c = true
  | [], [], _, h, _ => by cases h
  | [], _ :: _, [], _, h2 => by cases h2
  | [], _ :: _, _ :: _, _, _ => rfl
  | _ :: _, [], _, h, _ => by cases h
  | _ :: _, _ :: _, [], _, h2 => by cases h2
  | x :: a, y :: b, z :: c, h1, h2 => by
    rw [bytesLtB_cons] at h1 h2 ⊢
    rcases h1 with h1 | ⟨rfl, h1⟩
    · rcases h2 with h2 | ⟨rfl, h2⟩
      · exact Or.inl (Nat.lt_trans h1 h2)
      · exact Or.inl h1
    · rcases h2 with h2 | ⟨rfl, h2⟩
      · exact Or.inl h2
      · exact Or.inr ⟨rfl, bytesLtB_trans h1 h2⟩

theorem bytesLtB_trichotomy : ∀ a b : List Nat,
    bytesLtB a b = true ∨ a = b ∨ bytesLtB b a = true
  | [], [] => Or.inr (Or.inl rfl)
  | [], _ :: _ => Or.inl rfl
  | _ :: _, [] => Or.inr (Or.inr rfl)
  | x :: a, y :: b => by
    rcases Nat.lt_trichotomy x y with h | h | h
    · exact Or.inl ((bytesLtB_cons x y a b).mpr (Or.inl h))
    · subst h
      rcases bytesLtB_trichotomy a b with h2 | h2 | h2
      · exact Or.inl ((bytesLtB_cons x x a b).mpr (Or.inr ⟨rfl, h2⟩))
      · exact Or.inr (Or.inl (by rw [h2]))
      · exact Or.inr (Or.inr ((bytesLtB_cons x x b a).mpr (Or.inr ⟨rfl, h2⟩)))
    · exact Or.inr (Or.inr ((bytesLtB_cons y x b a).mpr (Or.inl h)))

theorem prioLtB_iff (p q : ForgePriority) :
    prioLtB p q = true ↔
      p.timestamp < q.timestamp ∨
        (p.timestamp = q.timestamp ∧ p.fee < q.fee) := by
  rw [prioLtB]
  split_ifs with h1 h2
  · simp [h1]
  · constructor
    · intro h
      cases h
    · intro h
      omega
  · constructor
    · intro h
      right
      constructor
      · omega
      · simpa using h
    · intro h
      simp only [decide_eq_true_eq]
      omega

theorem prioLtB_trans {p q r : ForgePriority} (h1 : prioLtB p q = true)
    (h2 : prioLtB q r = true) : prioLtB p r = true := by
  rw [prioLtB_iff] at h1 h2 ⊢
  omega

theorem prioLtB_trichotomy (p q : ForgePriority) :
    prioLtB p q = true ∨ p = q ∨ prioLtB q p = true := by
  cases p with
  | mk pt pf =>
    cases q with
    | mk qt qf =>
      rcases Nat.lt_trichotomy pt qt with h | h | h
      · exact Or.inl ((prioLtB_iff _ _).mpr (Or.inl h))
      · subst h
        rcases Nat.lt_trichotomy pf qf with h2 | h2 | h2
        · exact Or.inl ((prioLtB_iff _ _).mpr (Or.inr ⟨rfl, h2⟩))
        · subst h2
          exact Or.inr (Or.inl rfl)
        · exact Or.inr (Or.inr ((prioLtB_iff _ _).mpr (Or.inr ⟨rfl, h2⟩)))
      · exact Or.inr (Or.inr ((prioLtB_iff _ _).mpr (Or.inl h)))

theorem bytesLtB_eq_of_not_lt {a b : List Nat} (h1 : ¬ bytesLtB a b = true)
    (h2 : ¬ bytesLtB b a = true) : a = b := by
  rcases bytesLtB_trichotomy a b with h | h | h
  · exact absurd h h1
  · exact h
  · exact absurd h h2

theorem bytesLtB_irrefl : ∀ a : List Nat, bytesLtB a a = false
  | [] => rfl
  | x :: a => by
    rw [bytesLtB, if_neg (Nat.lt_irrefl x), if_neg (Nat.lt_irrefl x)]
    exact bytesLtB_irrefl a

theorem keyLtB_iff (x y : List Nat × ForgePriority) :
    keyLtB x y = true ↔
      bytesLtB x.1 y.1 = true ∨ (x.1 = y.1 ∧ prioLtB x.2 y.2 = true) := by
  rw [keyLtB]
  split_ifs with h1 h2
  · simp [h1]
  · constructor
    · intro h
      cases h
    · rintro (h | ⟨he, _⟩)
      · exact absurd h h1
      · rw [he, bytesLtB_irrefl] at h2
        cases h2
  · have he : x.1 = y.1 := bytesLtB_eq_of_not_lt h1 h2
    constructor
    · intro h
      exact Or.inr ⟨he, h⟩
    · rintro (h | ⟨_, h⟩)
      · exact absurd h h1
      · exact h

theorem keyLtB_trans {x y z : List Nat × ForgePriority}
    (h1 : keyLtB x y = true) (h2 : keyLtB y z = true) : keyLtB x z = true := by
  rw [keyLtB_iff] at h1 h2 ⊢
  rcases h1 with h1 | ⟨e1, p1⟩
  · rcases h2 with h2 | ⟨e2, p2⟩
    · exact Or.inl (bytesLtB_trans h1 h2)
    · exact Or.inl (by rw [← e2]; exact h1)
  · rcases h2 with h2 | ⟨e2, p2⟩
    · exact Or.inl (by rw [e1]; exact h2)
    · exact Or.inr ⟨e1.trans e2, prioLtB_trans p1 p2⟩

theorem keyLtB_trichotomy (x y : List Nat × ForgePriority) :
    keyLtB x y = true ∨ x = y ∨ keyLtB y x = true := by
  rcases bytesLtB_trichotomy x.1 y.1 with h | h | h
  · exact Or.inl ((keyLtB_iff x y).mpr (Or.inl h))
  · rcases prioLtB_trichotomy x.2 y.2 with h2 | h2 | h2
    · exact Or.inl ((keyLtB_iff x y).mpr (Or.inr ⟨h, h2⟩))
    · exact Or.inr (Or.inl (Prod.ext h h2))
    · exact Or.inr (Or.inr ((keyLtB_iff y x).mpr (Or.inr ⟨h.symm, h2⟩)))
  · exact Or.inr (Or.inr ((keyLtB_iff y x).mpr (Or.inl h)))

instance : IsTotal (List Nat × ForgePriority) keyLE :=
  ⟨fun x y => by
    rcases keyLtB_trichotomy x y with h | h | h
    · exact Or.inl (Or.inl h)
    · exact Or.inl (Or.inr h)
    · exact Or.inr (Or.inl h)⟩

instance : IsTrans (List Nat × ForgePriority) keyLE :=
  ⟨fun x y z hxy hyz => by
    rcases hxy with h1 | rfl
    · rcases hyz with h2 | rfl
      · exact Or.inl (keyLtB_trans h1 h2)
      · exact Or.inl h1
    · exact hyz⟩

/-- The i-th forge of the claim scenario: proof hash bytes all `i`,
timestamp `1000 + i`. -/
def forgeT (i : Nat) : ForgeTransaction :=
  ⟨canonicalProphecyString, [], "addr", List.replicate 32 i, 1000 + i, []⟩

/-- The five-forge scenario pool of the claim. -/
def pool5 : ForgePool :=
  ((List.range 5).map forgeT).foldl (fun p f => (add_forge p f 0).1)
    (ForgePool.new 100 5)

/-- A pool of two forges whose hash order opposes their timestamp order, for
the C8 counterexample. -/
def poolPrio : ForgePool :=
  (add_forge
    (add_forge (ForgePool.new 10 5)
      ⟨canonicalProphecyString, [], "hi", List.replicate 32 2, 1000, []⟩ 0).1
    ⟨canonicalProphecyString, [], "lo", List.replicate 32 1, 2000, []⟩ 0).1

/-- Counterexample to C8 as stated: `poolPrio` holds a pending forge of
timestamp 2000 — the highest `(timestamp, fee)` priority — yet
`get_forges_for_block 1` returns the timestamp-1000 forge, because the
`BTreeSet` element order compares `(proof_hash, priority)` with the hash most
significant, not the priority. -/
theorem get_forges_for_block_not_priority_order :
    ((get_forges_for_block poolPrio 1).map fun f => f.timestamp) = [1000] ∧
      2000 ∈ poolPrio.pending.map fun kv => kv.2.forge.timestamp := by decide

/-- C8 (amended): `get_forges_for_block n` returns up to `n` forges walking
the priority index from its highest end, where the index order is the
lexicographic `(proof_hash, (timestamp, fee))` order with the proof hash most
significant — not the `(timestamp, fee)` order the claim states; the pool is
not mutated.  In the five-forge scenario the hashes increase with the
timestamps, so the selection does return the forges with timestamps
1004, 1003, 1002 in that order. -/
theorem get_forges_for_block_amended :
    (∀ (pool : ForgePool) (n : Nat), (get_forges_for_block pool n).length ≤ n) ∧
    (∀ (pool : ForgePool) (n : Nat),
      ((pool.priority_queue.insertionSort keyLE).reverse.take n).Pairwise
        fun a b => keyLE b a) ∧
    ((get_forges_for_block pool5 3).map fun f => f.timestamp) =
      [1004, 1003, 1002] := by
  refine ⟨?_, ?_, ?_⟩
  · intro pool n
    have h1 : (get_forges_for_block pool n).length ≤
        ((pool.priority_queue.insertionSort keyLE).reverse.take n).length :=
      List.length_filterMap_le _ _
    have h2 : ((pool.priority_queue.insertionSort keyLE).reverse.take n).length
        ≤ n := by
      simp [List.length_take]
    exact le_trans h1 h2
  · intro pool n
    have hs : (pool.priority_queue.insertionSort keyLE).Pairwise keyLE :=
      List.sorted_insertionSort keyLE pool.priority_queue
    have hrev : ((pool.priority_queue.insertionSort keyLE).reverse.Pairwise
        fun a b => keyLE b a) := by
      rw [List.pairwise_reverse]
      exact hs
    exact hrev.sublist (List.take_sublist n _)
  · decide

/-- A JSON value (`serde_json::Value`), as far as the dispatcher observes it. -/
inductive Json where
  | null
  | bool (b : Bool)
  | num (n : Int)
  | str (s : String)
  | arr (elems : List Json)
  | obj (fields : List (String × Json))

/-- `JsonRpcRequest` (`rpc/mod.rs` lines 12-17). -/
structure JsonRpcRequest where
  jsonrpc : String
  method : String
  params : Option Json
  id : Json

/-- `JsonRpcError` (`rpc/mod.rs` lines 32-37). -/
structure JsonRpcError where
  code : Int
  message : String
  data : Option Json

/-- `JsonRpcResponse` (`rpc/mod.rs` lines 21-28). -/
structure JsonRpcResponse where
  jsonrpc : String
  result : Option Json
  error : Option JsonRpcError
  id : Json

/-- `HashMap::get` on the handler registry (`rpc/mod.rs` line 201). -/
def findHandler (method : String) :
    List (String × (Option Json → Except String Json)) →
      Option (Option Json → Except String Json)
  | [] => none
  | (name, handler) :: rest =>
    if name = method then some handler else findHandler method rest

/-- `RpcServer::handle_request` (`rpc/mod.rs` lines 184-238): reject a
`jsonrpc` field other than `2.0` with code -32600, an unregistered method
with code -32601; run the handler, wrapping success as `result` and a handler
error as code -32603 with the message under `data.error`. -/
def handle_request
    (handlers : List (String × (Option Json → Except String Json)))
    (request : JsonRpcRequest) : JsonRpcResponse :=
  if request.jsonrpc ≠ "2.0" then
    ⟨"2.0", none,
      some ⟨-32600, "Invalid Request - jsonrpc must be 2.0", none⟩, request.id⟩
  else
    match findHandler request.method handlers with
    | none =>
      ⟨"2.0", none,
        some ⟨-32601, "Method not found: " ++ request.method, none⟩, request.id⟩
    | some handler =>
      match handler request.params with
      | .ok result => ⟨"2.0", some result, none, request.id⟩
      | .error e =>
        ⟨"2.0", none,
          some ⟨-32603, "Internal error", some (.obj [("error", .str e)])⟩,
          request.id⟩

/-- `RpcServer::handle_request_str` (`rpc/mod.rs` lines 241-261), with the
`serde_json::from_str` outcome passed in as an `Except` (the parser itself is
outside the embedding): a parse failure is answered with code -32700 and a
null id, a parsed request is dispatched through `handle_request`.  The final
serialization of the response to a string is omitted. -/
def handle_request_str
    (handlers : List (String × (Option Json → Except String Json)))
    (parsed : Except String JsonRpcRequest) : JsonRpcResponse :=
  match parsed with
  | .error e =>
    ⟨"2.0", none,
      some ⟨-32700, "Parse error", some (.obj [("error", .str e)])⟩, Json.null⟩
  | .ok request => handle_request handlers request

/-- C9: a request whose `jsonrpc` field is not `2.0` is answered with error
code -32600; a well-versioned request for an unregistered method with
code -32601; an unparseable request body with code -32700; a handler failure
with code -32603 carrying the handler message under `data.error`; and every
response of the dispatcher carries a result or an error, never both and never
neither. -/
theorem rpc_error_codes
    (handlers : List (String × (Option Json → Except String Json)))
    (req : JsonRpcRequest) (parsed : Except String JsonRpcRequest)
    (parseErr : String) :
    (req.jsonrpc ≠ "2.0" →
      (handle_request handlers req).error.map (fun e => e.code) =
        some (-32600)) ∧
    (req.jsonrpc = "2.0" → findHandler req.method handlers = none →
      (handle_request handlers req).error.map (fun e => e.code) =
        some (-32601)) ∧
    ((handle_request_str handlers (.error parseErr)).error.map
        (fun e => e.code) = some (-32700)) ∧
    (∀ handler msg, req.jsonrpc = "2.0" →
      findHandler req.method handlers = some handler →
      handler req.params = .error msg →
      (handle_request handlers req).error =
        some ⟨-32603, "Internal error", some (.obj [("error", .str msg)])⟩) ∧
    ((handle_request handlers req).result.isSome ≠
      (handle_request handlers req).error.isSome) ∧
    ((handle_request_str handlers parsed).result.isSome ≠
      (handle_request_str handlers parsed).error.isSome) := by
  refine ⟨fun hv => ?_, fun hv hm => ?_, ?_, fun handler msg hv hm he => ?_,
    ?_, ?_⟩
  · rw [handle_request, if_pos hv]
    rfl
  · rw [handle_request, if_neg (by simp [hv]), hm]
    rfl
  · rfl
  · rw [handle_request, if_neg (by simp [hv]), hm]
    show (match handler req.params with
      | Except.ok result =>
        (⟨"2.0", some result, none, req.id⟩ : JsonRpcResponse)
      | Except.error e =>
        ⟨"2.0", none,
          some ⟨-32603, "Internal error", some (.obj [("error", .str e)])⟩,
          req.id⟩).error = _
    rw [he]
  · rw [handle_request]
    split
    · simp
    · split
      · simp
      · split
        · simp
        · simp
  · cases parsed with
    | error e => simp [handle_request_str]
    | ok request =>
      rw [handle_request_str, handle_request]
      split
      · simp
      · split
        · simp
        · split
          · simp
          · simp

/-- The handler registry of the C9 witness: one succeeding and one failing
method. -/
def handlersW : List (String × (Option Json → Except String Json)) :=
  [("getinfo", fun _ => .ok Json.null),
   ("boom", fun _ => .error "boom failed")]

/-- Witness for C9 on concrete requests: a version-1.0 request, an unknown
method, an unparseable body, and a failing handler produce codes -32600,
-32601, -32700 and -32603 respectively. -/
theorem rpc_error_codes_witness :
    (handle_request handlersW ⟨"1.0", "getinfo", none, Json.null⟩).error.map
        (fun e => e.code) = some (-32600) ∧
    (handle_request handlersW ⟨"2.0", "nope", none, Json.null⟩).error.map
        (fun e => e.code) = some (-32601) ∧
    (handle_request_str handlersW (.error "bad json")).error.map
        (fun e => e.code) = some (-32700) ∧
    (handle_request handlersW ⟨"2.0", "boom", none, Json.null⟩).error =
      some ⟨-32603, "Internal error",
        some (.obj [("error", .str "boom failed")])⟩ :=
  ⟨(rpc_error_codes handlersW ⟨"1.0", "getinfo", none, Json.null⟩
      (.ok ⟨"1.0", "getinfo", none, Json.null⟩) "x").1 (by decide),
   (rpc_error_codes handlersW ⟨"2.0", "nope", none, Json.null⟩
      (.ok ⟨"2.0", "nope", none, Json.null⟩) "x").2.1 rfl rfl,
   (rpc_error_codes handlersW ⟨"2.0", "nope", none, Json.null⟩
      (.ok ⟨"2.0", "nope", none, Json.null⟩) "x").2.2.1,
   (rpc_error_codes handlersW ⟨"2.0", "boom", none, Json.null⟩
      (.ok ⟨"2.0", "boom", none, Json.null⟩) "x").2.2.2.1
      (fun _ => .error "boom failed") "boom failed" rfl rfl rfl⟩
